import Mathlib

/-!
Verification of the Video-Previewer repository's frame-timeline planner,
duration-calibration binary search, capture-batch loop, zero-padded frame
file naming and duration-query loop.

Numeric quantities that the Python source handles as floats are modelled over
the exact rationals `ℚ`; every "within floating tolerance" statement of the
design document is settled as an exact identity over `ℚ`.
-/

namespace VideoPreviewer

/-- Value of the `--focus` command line option (`video_previewer.py`,
`capture_focus`): one of `"none"`, `"begin"`, `"end"`. -/
inductive Focus where
  | none
  | begin
  | «end»
deriving DecidableEq, Repr

/-- Accumulating loop shared by both branches of
`CLIMain.process_file` (`video_previewer.py` lines 428-432 and 447-451):
`for i in range(i0, i0+n): last = last + f i; frame_times.append(last)`.
`f` is the increment added at step `i` (`part_length` in the `none` branch,
`base + delta * i` in the `begin`/`end` branch). -/
def frameLoop (f : ℕ → ℚ) (last : ℚ) (i : ℕ) : ℕ → List ℚ
  | 0 => []
  | n + 1 =>
    let last2 := last + f i
    last2 :: frameLoop f last2 (i + 1) n

/-- Frame times of the `begin` branch of `CLIMain.process_file`
(`video_previewer.py` lines 433-451).  In the source, `part_length` is
`float(info["duration"] - 2 * padding) / (frame_count + 1)`,
`base = part_length * 0.2`, the local variable `duration` is
`info["duration"] - 2 * padding` and
`delta = (duration / (frame_count + 1) - base) * 2 / frame_count`;
the list starts with `base + padding` and the loop adds `base + delta * i`
for `i in range(1, frame_count)`. -/
def beginTimes (duration padding : ℚ) (frame_count : ℕ) : List ℚ :=
  let part_length := (duration - 2 * padding) / ((frame_count : ℚ) + 1)
  let base := part_length * (1 / 5)
  let dur2 := duration - 2 * padding
  let delta := (dur2 / ((frame_count : ℚ) + 1) - base) * 2 / (frame_count : ℚ)
  let first := base + padding
  first :: frameLoop (fun i => base + delta * (i : ℚ)) first 1 (frame_count - 1)

/-- Frame-capture-time planner of `CLIMain.process_file`
(`video_previewer.py` lines 420-455).  For `focus = none` the list starts at
`part_length + padding` and grows by `part_length` each step; for
`focus = begin` it is `beginTimes`; for `focus = end` every `begin` time `t`
is replaced by `duration - t` and the list is reversed in place
(lines 452-455). -/
def plan (duration padding : ℚ) (frame_count : ℕ) (capture_focus : Focus) :
    List ℚ :=
  let part_length := (duration - 2 * padding) / ((frame_count : ℚ) + 1)
  match capture_focus with
  | .none =>
    let first := part_length + padding
    first :: frameLoop (fun _ => part_length) first 1 (frame_count - 1)
  | .begin => beginTimes duration padding frame_count
  | .«end» =>
    ((beginTimes duration padding frame_count).map
      (fun t => duration - t)).reverse

/-- Lengths of the `frame_count + 1` inter-frame intervals of a plan: the
distance from `padding` to the first timestamp, between consecutive
timestamps, and from the last timestamp to `duration - padding`. -/
def planGaps (duration padding : ℚ) (frame_count : ℕ) (capture_focus : Focus) :
    List ℚ :=
  let ts := plan duration padding frame_count capture_focus
  List.zipWith (fun a b => b - a) (padding :: ts) (ts ++ [duration - padding])

/-- Tolerance `EPS = 0.001` of the duration-scale binary search in
`MPlayerBackend.load_file` (`mplayer_backend.py` line 73). -/
def EPS : ℚ := 1 / 1000

/-- Termination measure fact for `calibrateLoop`: each loop iteration
shrinks the bracket from `r - l` to `(r - l) / 2 - EPS`. -/
theorem calibMeasure (l r : ℚ) (h : EPS ≤ r - l) :
    (⌈((r - l) / 2 - EPS) / EPS⌉).toNat < (⌈(r - l) / EPS⌉).toNat := by
  have hx : (1 : ℚ) ≤ (r - l) / EPS := by
    rw [le_div_iff₀ (by norm_num [EPS])]
    simpa [EPS] using h
  have hhalf : ((r - l) / 2 - EPS) / EPS = (r - l) / EPS / 2 - 1 := by
    field_simp [EPS]
    ring
  have hceil1 : (1 : ℤ) ≤ ⌈(r - l) / EPS⌉ := by
    have := Int.ceil_le_ceil (α := ℚ) hx
    simpa using this
  have hmono : ⌈(r - l) / EPS / 2⌉ ≤ ⌈(r - l) / EPS⌉ := by
    apply Int.ceil_le_ceil
    have h0 : (0 : ℚ) ≤ (r - l) / EPS := le_trans (by norm_num) hx
    linarith
  have hsub : ⌈(r - l) / EPS / 2 - 1⌉ = ⌈(r - l) / EPS / 2⌉ - 1 := by
    exact_mod_cast Int.ceil_sub_int ((r - l) / EPS / 2) 1
  rw [hhalf, hsub]
  omega

/-- Binary search loop of `MPlayerBackend.load_file`
(`mplayer_backend.py` lines 71-79):
`while right - left >= EPS: middle = (right + left) * 0.5;`
`if probe(middle): left = middle + EPS else: right = middle - EPS`,
returning the final value of `left`.  `probe middle` stands for the
success of the real capture attempt
`self.capture_frame(info["duration"] * middle)`. -/
def calibrateLoop (probe : ℚ → Bool) (left right : ℚ) : ℚ :=
  if h : EPS ≤ right - left then
    let middle := (right + left) * (1 / 2)
    if probe middle then
      calibrateLoop probe (middle + EPS) right
    else
      calibrateLoop probe left (middle - EPS)
  else
    left
termination_by (⌈(right - left) / EPS⌉).toNat
decreasing_by
  · have h2 : right - ((right + left) * (1 / 2) + EPS) =
        (right - left) / 2 - EPS := by ring
    rw [h2]
    exact calibMeasure left right h
  · have h2 : (right + left) * (1 / 2) - EPS - left =
        (right - left) / 2 - EPS := by ring
    rw [h2]
    exact calibMeasure left right h

/-- Duration scale determined by the binary search of
`MPlayerBackend.load_file` (`mplayer_backend.py` line 81):
`self.duration_scale = left - EPS` after the loop, starting from
`left = 0.0`, `right = 2.0`. -/
def calibrate (probe : ℚ → Bool) : ℚ :=
  calibrateLoop probe 0 2 - EPS

/-- Value that `self.duration_scale` holds after `MPlayerBackend.load_file`
(`mplayer_backend.py` lines 61-81): `1` unless the parsed
`info["video_framerate"]` equals the WMV sentinel `1000`, in which case the
binary-searched scale is used. -/
def load_duration_scale (video_framerate : ℚ) (probe : ℚ → Bool) : ℚ :=
  if video_framerate = 1000 then calibrate probe else 1

/-- `MPlayerBackend.capture_time_to_seconds` (`mplayer_backend.py`
lines 13-14): `return time / self.duration_scale`. -/
def capture_time_to_seconds (duration_scale time : ℚ) : ℚ :=
  time / duration_scale

/-- Return value of `BaseBackend.capture_frame` implementations: the Python
`False` on failure, the frame timestamp (a float) on success
(`base_backend.py` lines 38-46, `mplayer_backend.py` lines 94-125). -/
inductive Capture where
  | fail
  | ok (time : ℚ)
deriving DecidableEq, Repr

/-- Python truthiness of a `capture_frame` return value, as tested by
`if capture_time:` in `BaseBackend.capture_frames` (`base_backend.py`
line 61): `False` is falsy and a float is truthy exactly when nonzero. -/
def Capture.isTruthy : Capture → Bool
  | .fail => false
  | .ok t => decide (t ≠ 0)

/-- The timestamp payload appended to `frame_files` when the result is
truthy (`base_backend.py` line 62). -/
def Capture.timeVal : Capture → ℚ
  | .fail => 0
  | .ok t => t

/-- Python `==` comparison of a `capture_frame` return value against the
failure sentinel `False`: in Python, `False == 0.0` is `True`, so a success
carrying timestamp `0.0` compares equal to the sentinel. -/
def Capture.pyEqFalse : Capture → Bool
  | .fail => true
  | .ok t => decide (t = 0)

/-- `MPlayerBackend.capture_frame` (`mplayer_backend.py` lines 94-125):
spawns one mplayer invocation, then checks whether the expected output file
`00000001.png` exists; if not, returns `False`; otherwise moves or deletes
the file and returns `capture_time` (the request timestamp echoed back).
`output_file_exists` abstracts the filesystem check. -/
def mplayer_capture_frame (output_file_exists : Bool) (capture_time : ℚ) :
    Capture :=
  if output_file_exists then .ok capture_time else .fail

/-- Termination measure fact for the first correction loop of
`util.safe_int_log`: the loop guard `base ** log > value` forces
`0 < log` once `1 ≤ value`. -/
theorem logDownMeasure (value : ℚ) (base : ℕ) (hv : 1 ≤ value) (hb : 2 ≤ base)
    (g : ℤ) (h : value < (base : ℚ) ^ g) : (g - 1).toNat < g.toNat := by
  have hg : 0 < g := by
    by_contra hle
    push_neg at hle
    have hb1 : (1 : ℚ) ≤ (base : ℚ) := by exact_mod_cast le_trans (by norm_num) hb
    have := zpow_le_one_of_nonpos₀ hb1 hle
    linarith
  omega

/-- Termination measure fact for the second correction loop of
`util.safe_int_log`: the loop guard `base ** (log + 1) <= value` bounds
`log + 1` by `⌈value⌉`. -/
theorem logUpMeasure (value : ℚ) (base : ℕ) (hv : 1 ≤ value) (hb : 2 ≤ base)
    (g : ℤ) (h : (base : ℚ) ^ (g + 1) ≤ value) :
    (⌈value⌉ + 1 - (g + 1)).toNat < (⌈value⌉ + 1 - g).toNat := by
  have hle : g + 1 ≤ ⌈value⌉ := by
    by_contra hgt
    push_neg at hgt
    have hcv : (1 : ℤ) ≤ ⌈value⌉ := by
      have h1 : (1 : ℚ) ≤ (⌈value⌉ : ℚ) := le_trans hv (Int.le_ceil value)
      exact_mod_cast h1
    have hm : g + 1 = ((g + 1).toNat : ℤ) := by omega
    set m := (g + 1).toNat with hmdef
    have hpow : (base : ℚ) ^ (g + 1) = (base : ℚ) ^ m := by
      rw [hm]
      exact zpow_natCast _ m
    have h2m : (m : ℚ) < 2 ^ m := by exact_mod_cast Nat.lt_two_pow m
    have hbm : (2 : ℚ) ^ m ≤ (base : ℚ) ^ m :=
      pow_le_pow_left₀ (by norm_num) (by exact_mod_cast hb) m
    have hml : (⌈value⌉ : ℚ) + 1 ≤ (m : ℚ) := by
      exact_mod_cast (by omega : ⌈value⌉ + 1 ≤ (m : ℤ))
    have hvm : value ≤ (⌈value⌉ : ℚ) := Int.le_ceil value
    have hfin : value < (base : ℚ) ^ (g + 1) := by
      rw [hpow]
      calc value ≤ (⌈value⌉ : ℚ) := hvm
        _ < (m : ℚ) := by linarith
        _ < 2 ^ m := h2m
        _ ≤ (base : ℚ) ^ m := hbm
    linarith
  omega

/-- First correction loop of `util.safe_int_log` (`util.py` lines 109-110):
`while base ** log > value: log -= 1`.  The exponent ranges over `ℤ` because
Python evaluates `base ** log` as a float below `1` once `log` is negative.
The hypotheses `1 ≤ value` and `2 ≤ base` hold at every call site and make
the loop well-founded. -/
def logDown (value : ℚ) (base : ℕ) (hv : 1 ≤ value) (hb : 2 ≤ base)
    (g : ℤ) : ℤ :=
  if h : value < (base : ℚ) ^ g then logDown value base hv hb (g - 1) else g
termination_by g.toNat
decreasing_by exact logDownMeasure value base hv hb g h

/-- Second correction loop of `util.safe_int_log` (`util.py` lines 111-112):
`while base ** (log + 1) <= value: log += 1`. -/
def logUp (value : ℚ) (base : ℕ) (hv : 1 ≤ value) (hb : 2 ≤ base)
    (g : ℤ) : ℤ :=
  if h : (base : ℚ) ^ (g + 1) ≤ value then logUp value base hv hb (g + 1)
  else g
termination_by (⌈value⌉ + 1 - g).toNat
decreasing_by exact logUpMeasure value base hv hb g h

/-- `util.safe_int_log` (`util.py` lines 107-113).  The starting guess
`g` models `int(math.floor(math.log(value, base)))`, whose float inaccuracy
the two correction loops repair; the theorem `safe_int_log_eq_natLog` shows
the result does not depend on `g`.  `none` models `math.log` raising
`ValueError` on a nonpositive `value`; the guard also requires `1 ≤ value`
and `2 ≤ base`, which hold at every call site (`value` is a positive list
length or byte count, `base` is `10` or `1024`), and which make both
correction loops terminating. -/
def safe_int_log (value : ℚ) (base : ℕ) (g : ℤ) : Option ℤ :=
  if h : 1 ≤ value ∧ 2 ≤ base then
    some (logUp value base h.1 h.2 (logDown value base h.1 h.2 g))
  else none

/-- Python `"%0*d" % (width, n)`: decimal digits of `n` left-padded with
zeros to `width` characters (no truncation when `n` is longer). -/
def zeroPad (width : ℕ) (n : ℕ) : String :=
  let s := toString n
  String.mk (List.replicate (width - s.length) '0') ++ s

/-- Frame file name `"frame-%0*d.png" % (width, current)` built by
`BaseBackend.capture_frames` (`base_backend.py` lines 57-58). -/
def frameFileName (width : ℕ) (current : ℕ) : String :=
  "frame-" ++ zeroPad width current ++ ".png"

/-- Loop body of `BaseBackend.capture_frames` (`base_backend.py`
lines 50-63): for each requested `time`, the next file name is
`frame-%0*d.png` with width `safe_int_log(len(frame_times), 10) + 1` and
index `len(frame_files) + 1`; `capture_frame` is invoked and its result is
appended (paired with the file name) exactly when it is truthy.
`batch_size` is `len(frame_times)` of the full batch and `g` is the float
`math.log` guess inside `safe_int_log`. -/
def captureLoop (capture : ℚ → Capture) (batch_size : ℕ) (g : ℤ)
    (frame_files : List (String × ℚ)) : List ℚ → Option (List (String × ℚ))
  | [] => some frame_files
  | time :: rest =>
    match safe_int_log (batch_size : ℚ) 10 g with
    | Option.none => Option.none
    | Option.some log =>
      let frame_file := frameFileName (log + 1).toNat (frame_files.length + 1)
      let capture_time := capture time
      if capture_time.isTruthy then
        captureLoop capture batch_size g
          (frame_files ++ [(frame_file, capture_time.timeVal)]) rest
      else
        captureLoop capture batch_size g frame_files rest

/-- `BaseBackend.capture_frames` (`base_backend.py` lines 50-63), with the
per-frame capture operation abstracted as a function from the requested
time to its returned value. -/
def capture_frames (capture : ℚ → Capture) (g : ℤ) (frame_times : List ℚ) :
    Option (List (String × ℚ)) :=
  captureLoop capture frame_times.length g [] frame_times

/-- Duration-query loop of `GStreamerBackend.load_file`
(`gstreamer_backend.py` lines 137-147): `while True:` query the duration;
on failure sleep and retry, on success record `info["duration"]` and break.
The source loop has no iteration bound, so it is modelled step-indexed:
`queryLoop qs d a n` observes `n` further iterations starting from attempt
number `a`, returning `some` of the recorded duration if the loop has exited
within those iterations and `none` if it is still running. -/
def queryLoop (query_success : ℕ → Bool) (query_duration : ℕ → ℚ)
    (attempt : ℕ) : ℕ → Option ℚ
  | 0 => Option.none
  | n + 1 =>
    if query_success attempt then Option.some (query_duration attempt)
    else queryLoop query_success query_duration (attempt + 1) n

theorem frameLoop_length (f : ℕ → ℚ) (last : ℚ) (i n : ℕ) :
    (frameLoop f last i n).length = n := by
  induction n generalizing last i with
  | zero => rfl
  | succ n ih => simp [frameLoop, ih]

theorem frameLoop_getD (f : ℕ → ℚ) (last : ℚ) (i n j : ℕ) (hj : j < n) :
    (frameLoop f last i n).getD j 0 =
      last + ∑ k ∈ Finset.range (j + 1), f (i + k) := by
  induction n generalizing last i j with
  | zero => omega
  | succ n ih =>
    cases j with
    | zero => simp [frameLoop]
    | succ j =>
      have hj' : j < n := by omega
      have hshift : ∀ k, i + (k + 1) = (i + 1) + k := by omega
      calc (frameLoop f last i (n + 1)).getD (j + 1) 0
          = (frameLoop f (last + f i) (i + 1) n).getD j 0 := by
            simp [frameLoop]
        _ = (last + f i) + ∑ k ∈ Finset.range (j + 1), f ((i + 1) + k) :=
            ih (last + f i) (i + 1) j hj'
        _ = last + ∑ k ∈ Finset.range (j + 2), f (i + k) := by
            have hsum : ∑ k ∈ Finset.range (j + 2), f (i + k) =
                f i + ∑ k ∈ Finset.range (j + 1), f ((i + 1) + k) := by
              rw [Finset.sum_range_succ']
              rw [Finset.sum_congr rfl
                (fun k _ => congrArg f (hshift k))]
              simp [add_comm]
            rw [hsum]
            ring

theorem sum_range_cast (m : ℕ) :
    ∑ k ∈ Finset.range m, (k : ℚ) = (m : ℚ) * ((m : ℚ) - 1) / 2 := by
  induction m with
  | zero => simp
  | succ m ih =>
    rw [Finset.sum_range_succ, ih]
    push_cast
    ring

theorem zipWith_sub_telescope (ts : List ℚ) (x y : ℚ) :
    (List.zipWith (fun a b => b - a) (x :: ts) (ts ++ [y])).sum = y - x := by
  induction ts generalizing x with
  | nil => simp
  | cons t ts ih =>
    simp only [List.cons_append, List.zipWith_cons_cons, List.sum_cons, ih t]
    ring


theorem calibrateLoop_eq_true (p : ℚ → Bool) (l r : ℚ) (hg : EPS ≤ r - l)
    (hp : p ((r + l) * (1 / 2)) = true) :
    calibrateLoop p l r = calibrateLoop p ((r + l) * (1 / 2) + EPS) r := by
  rw [calibrateLoop, dif_pos hg]
  simp only [hp, if_true]

theorem calibrateLoop_eq_false (p : ℚ → Bool) (l r : ℚ) (hg : EPS ≤ r - l)
    (hp : p ((r + l) * (1 / 2)) = false) :
    calibrateLoop p l r = calibrateLoop p l ((r + l) * (1 / 2) - EPS) := by
  rw [calibrateLoop, dif_pos hg]
  simp only [hp, if_false, Bool.false_eq_true]

theorem calibrateLoop_exit (p : ℚ → Bool) (l r : ℚ) (hg : ¬ EPS ≤ r - l) :
    calibrateLoop p l r = l := by
  rw [calibrateLoop, dif_neg hg]

theorem calibrateLoop_step_true (p : ℚ → Bool) (l r l2 : ℚ)
    (hg : EPS ≤ r - l) (hp : p ((r + l) * (1 / 2)) = true)
    (hl : (r + l) * (1 / 2) + EPS = l2) :
    calibrateLoop p l r = calibrateLoop p l2 r := by
  rw [calibrateLoop_eq_true p l r hg hp, hl]

theorem calibrateLoop_step_false (p : ℚ → Bool) (l r r2 : ℚ)
    (hg : EPS ≤ r - l) (hp : p ((r + l) * (1 / 2)) = false)
    (hr : (r + l) * (1 / 2) - EPS = r2) :
    calibrateLoop p l r = calibrateLoop p l r2 := by
  rw [calibrateLoop_eq_false p l r hg hp, hr]

theorem calibrateLoop_mem (p : ℚ → Bool) (l r : ℚ) :
    0 ≤ l → l ≤ r + EPS / 2 → r ≤ 2 →
    0 ≤ calibrateLoop p l r ∧ calibrateLoop p l r ≤ 2 + EPS / 2 := by
  induction l, r using calibrateLoop.induct p with
  | case1 l r hg middle hp ih =>
    intro h0 h1 h2
    rw [calibrateLoop_eq_true p l r hg hp]
    have hm : middle = (r + l) * (1 / 2) := rfl
    have hE : EPS = 1 / 1000 := rfl
    rw [hE] at hg
    refine ih ?_ ?_ h2
    · rw [hm, hE]; linarith
    · rw [hm, hE]; linarith
  | case2 l r hg middle hp ih =>
    intro h0 h1 h2
    have hp2 : p ((r + l) * (1 / 2)) = false := by
      simp only [Bool.not_eq_true] at hp
      exact hp
    rw [calibrateLoop_eq_false p l r hg hp2]
    have hm : middle = (r + l) * (1 / 2) := rfl
    have hE : EPS = 1 / 1000 := rfl
    rw [hE] at hg h1
    refine ih h0 ?_ ?_
    · rw [hm, hE]; linarith
    · rw [hm, hE]; linarith
  | case3 l r hg =>
    intro h0 h1 h2
    rw [calibrateLoop_exit p l r hg]
    have hE : EPS = 1 / 1000 := rfl
    constructor
    · exact h0
    · rw [hE] at h1 ⊢; linarith

theorem calibrateLoop_thresh (p : ℚ → Bool) (c : ℚ)
    (hpc : ∀ s, p s = true ↔ s ≤ c) (l r : ℚ) :
    l ≤ c + EPS → c - EPS < r →
    c - 2 * EPS < calibrateLoop p l r ∧ calibrateLoop p l r ≤ c + EPS := by
  induction l, r using calibrateLoop.induct p with
  | case1 l r hg middle hp ih =>
    intro h1 h2
    rw [calibrateLoop_eq_true p l r hg hp]
    have hc : middle ≤ c := (hpc middle).mp hp
    refine ih ?_ h2
    linarith
  | case2 l r hg middle hp ih =>
    intro h1 h2
    have hp2 : p ((r + l) * (1 / 2)) = false := by
      simp only [Bool.not_eq_true] at hp
      exact hp
    rw [calibrateLoop_eq_false p l r hg hp2]
    have hc : c < middle := by
      by_contra hcc
      push_neg at hcc
      exact hp ((hpc middle).mpr hcc)
    refine ih h1 ?_
    linarith
  | case3 l r hg =>
    intro h1 h2
    rw [calibrateLoop_exit p l r hg]
    push_neg at hg
    have hE : EPS = 1 / 1000 := rfl
    constructor
    · rw [hE] at hg h2 ⊢; linarith
    · exact h1


/-- Exact run of the binary search against a probe succeeding exactly for
scales at most `0.7`: the loop finishes with `left = 179179/256000`, so the
reported scale is `178923/256000 = 0.69891796875`. -/
theorem calibrate_thresh07_eq :
    calibrate (fun s => decide (s ≤ 7 / 10)) = 178923 / 256000 := by
  have hloop : calibrateLoop (fun s => decide (s ≤ 7 / 10)) 0 2 =
      179179 / 256000 := by
    calc calibrateLoop (fun s => decide (s ≤ 7 / 10)) 0 2
        = calibrateLoop (fun s => decide (s ≤ 7 / 10)) 0 (999 / 1000) :=
          calibrateLoop_step_false _ 0 2 (999 / 1000)
            (by norm_num [EPS]) (by norm_num) (by norm_num [EPS])
      _ = calibrateLoop (fun s => decide (s ≤ 7 / 10)) (1001 / 2000)
            (999 / 1000) :=
          calibrateLoop_step_true _ 0 (999 / 1000) (1001 / 2000)
            (by norm_num [EPS]) (by norm_num) (by norm_num [EPS])
      _ = calibrateLoop (fun s => decide (s ≤ 7 / 10)) (1001 / 2000)
            (599 / 800) :=
          calibrateLoop_step_false _ (1001 / 2000) (999 / 1000) (599 / 800)
            (by norm_num [EPS]) (by norm_num) (by norm_num [EPS])
      _ = calibrateLoop (fun s => decide (s ≤ 7 / 10)) (1001 / 1600)
            (599 / 800) :=
          calibrateLoop_step_true _ (1001 / 2000) (599 / 800) (1001 / 1600)
            (by norm_num [EPS]) (by norm_num) (by norm_num [EPS])
      _ = calibrateLoop (fun s => decide (s ≤ 7 / 10)) (11011 / 16000)
            (599 / 800) :=
          calibrateLoop_step_true _ (1001 / 1600) (599 / 800) (11011 / 16000)
            (by norm_num [EPS]) (by norm_num) (by norm_num [EPS])
      _ = calibrateLoop (fun s => decide (s ≤ 7 / 10)) (11011 / 16000)
            (22959 / 32000) :=
          calibrateLoop_step_false _ (11011 / 16000) (599 / 800)
            (22959 / 32000)
            (by norm_num [EPS]) (by norm_num) (by norm_num [EPS])
      _ = calibrateLoop (fun s => decide (s ≤ 7 / 10)) (11011 / 16000)
            (44917 / 64000) :=
          calibrateLoop_step_false _ (11011 / 16000) (22959 / 32000)
            (44917 / 64000)
            (by norm_num [EPS]) (by norm_num) (by norm_num [EPS])
      _ = calibrateLoop (fun s => decide (s ≤ 7 / 10)) (89089 / 128000)
            (44917 / 64000) :=
          calibrateLoop_step_true _ (11011 / 16000) (44917 / 64000)
            (89089 / 128000)
            (by norm_num [EPS]) (by norm_num) (by norm_num [EPS])
      _ = calibrateLoop (fun s => decide (s ≤ 7 / 10)) (179179 / 256000)
            (44917 / 64000) :=
          calibrateLoop_step_true _ (89089 / 128000) (44917 / 64000)
            (179179 / 256000)
            (by norm_num [EPS]) (by norm_num) (by norm_num [EPS])
      _ = calibrateLoop (fun s => decide (s ≤ 7 / 10)) (179179 / 256000)
            (358335 / 512000) :=
          calibrateLoop_step_false _ (179179 / 256000) (44917 / 64000)
            (358335 / 512000)
            (by norm_num [EPS]) (by norm_num) (by norm_num [EPS])
      _ = 179179 / 256000 :=
          calibrateLoop_exit _ (179179 / 256000) (358335 / 512000)
            (by norm_num [EPS])
  rw [calibrate, hloop]
  norm_num [EPS]

/-- Exact run of the binary search against a probe that fails at every
scale: `left` never moves from `0`, so the reported scale is
`0 - EPS = -0.001`. -/
theorem calibrate_allFail_eq :
    calibrate (fun _ => false) = -(1 / 1000) := by
  have hloop : calibrateLoop (fun _ => false) 0 2 = 0 := by
    calc calibrateLoop (fun _ => false) 0 2
        = calibrateLoop (fun _ => false) 0 (999 / 1000) :=
          calibrateLoop_step_false _ 0 2 (999 / 1000)
            (by norm_num [EPS]) rfl (by norm_num [EPS])
      _ = calibrateLoop (fun _ => false) 0 (997 / 2000) :=
          calibrateLoop_step_false _ 0 (999 / 1000) (997 / 2000)
            (by norm_num [EPS]) rfl (by norm_num [EPS])
      _ = calibrateLoop (fun _ => false) 0 (993 / 4000) :=
          calibrateLoop_step_false _ 0 (997 / 2000) (993 / 4000)
            (by norm_num [EPS]) rfl (by norm_num [EPS])
      _ = calibrateLoop (fun _ => false) 0 (985 / 8000) :=
          calibrateLoop_step_false _ 0 (993 / 4000) (985 / 8000)
            (by norm_num [EPS]) rfl (by norm_num [EPS])
      _ = calibrateLoop (fun _ => false) 0 (969 / 16000) :=
          calibrateLoop_step_false _ 0 (985 / 8000) (969 / 16000)
            (by norm_num [EPS]) rfl (by norm_num [EPS])
      _ = calibrateLoop (fun _ => false) 0 (937 / 32000) :=
          calibrateLoop_step_false _ 0 (969 / 16000) (937 / 32000)
            (by norm_num [EPS]) rfl (by norm_num [EPS])
      _ = calibrateLoop (fun _ => false) 0 (873 / 64000) :=
          calibrateLoop_step_false _ 0 (937 / 32000) (873 / 64000)
            (by norm_num [EPS]) rfl (by norm_num [EPS])
      _ = calibrateLoop (fun _ => false) 0 (745 / 128000) :=
          calibrateLoop_step_false _ 0 (873 / 64000) (745 / 128000)
            (by norm_num [EPS]) rfl (by norm_num [EPS])
      _ = calibrateLoop (fun _ => false) 0 (489 / 256000) :=
          calibrateLoop_step_false _ 0 (745 / 128000) (489 / 256000)
            (by norm_num [EPS]) rfl (by norm_num [EPS])
      _ = calibrateLoop (fun _ => false) 0 (-(23 / 512000)) :=
          calibrateLoop_step_false _ 0 (489 / 256000) (-(23 / 512000))
            (by norm_num [EPS]) rfl (by norm_num [EPS])
      _ = 0 :=
          calibrateLoop_exit _ 0 (-(23 / 512000)) (by norm_num [EPS])
  rw [calibrate, hloop]
  norm_num [EPS]


theorem logDown_rec (value : ℚ) (base : ℕ) (hv : 1 ≤ value) (hb : 2 ≤ base)
    (g : ℤ) (h : value < (base : ℚ) ^ g) :
    logDown value base hv hb g = logDown value base hv hb (g - 1) := by
  rw [logDown, dif_pos h]

theorem logDown_exit (value : ℚ) (base : ℕ) (hv : 1 ≤ value) (hb : 2 ≤ base)
    (g : ℤ) (h : ¬ value < (base : ℚ) ^ g) :
    logDown value base hv hb g = g := by
  rw [logDown, dif_neg h]

theorem logDown_le (value : ℚ) (base : ℕ) (hv : 1 ≤ value) (hb : 2 ≤ base)
    (g : ℤ) :
    (base : ℚ) ^ (logDown value base hv hb g) ≤ value := by
  induction g using logDown.induct value base hv hb with
  | case1 g h ih =>
    rw [logDown_rec value base hv hb g h]
    exact ih
  | case2 g h =>
    rw [logDown_exit value base hv hb g h]
    exact le_of_not_lt h

theorem logUp_rec (value : ℚ) (base : ℕ) (hv : 1 ≤ value) (hb : 2 ≤ base)
    (g : ℤ) (h : (base : ℚ) ^ (g + 1) ≤ value) :
    logUp value base hv hb g = logUp value base hv hb (g + 1) := by
  rw [logUp, dif_pos h]

theorem logUp_exit (value : ℚ) (base : ℕ) (hv : 1 ≤ value) (hb : 2 ≤ base)
    (g : ℤ) (h : ¬ (base : ℚ) ^ (g + 1) ≤ value) :
    logUp value base hv hb g = g := by
  rw [logUp, dif_neg h]

theorem logUp_spec (value : ℚ) (base : ℕ) (hv : 1 ≤ value) (hb : 2 ≤ base)
    (g : ℤ) (hg : (base : ℚ) ^ g ≤ value) :
    (base : ℚ) ^ (logUp value base hv hb g) ≤ value ∧
      value < (base : ℚ) ^ (logUp value base hv hb g + 1) := by
  induction g using logUp.induct value base hv hb with
  | case1 g h ih =>
    rw [logUp_rec value base hv hb g h]
    exact ih h
  | case2 g h =>
    rw [logUp_exit value base hv hb g h]
    exact ⟨hg, lt_of_not_le h⟩

/-- The two correction loops of `util.safe_int_log` make the result
independent of the floating-point starting guess: for an integer value
`1 ≤ N` and base `2 ≤ b`, every starting guess `g` yields exactly
`Nat.log b N`, the true `⌊log_b N⌋`. -/
theorem safe_int_log_eq_natLog (N : ℕ) (hN : 1 ≤ N) (b : ℕ) (hb : 2 ≤ b)
    (g : ℤ) :
    safe_int_log (N : ℚ) b g = Option.some ((Nat.log b N : ℕ) : ℤ) := by
  have hv : (1 : ℚ) ≤ (N : ℚ) := by exact_mod_cast hN
  rw [safe_int_log, dif_pos ⟨hv, hb⟩]
  have hdown : (b : ℚ) ^ (logDown (N : ℚ) b hv hb g) ≤ (N : ℚ) :=
    logDown_le (N : ℚ) b hv hb g
  obtain ⟨h1, h2⟩ :=
    logUp_spec (N : ℚ) b hv hb (logDown (N : ℚ) b hv hb g) hdown
  have hb1 : (1 : ℚ) ≤ (b : ℚ) := by exact_mod_cast le_trans (by norm_num) hb
  have hr0 : 0 ≤ logUp (N : ℚ) b hv hb (logDown (N : ℚ) b hv hb g) := by
    by_contra hneg
    push_neg at hneg
    have hle : logUp (N : ℚ) b hv hb (logDown (N : ℚ) b hv hb g) + 1 ≤ 0 := by
      omega
    have := zpow_le_one_of_nonpos₀ hb1 hle
    linarith
  set r := logUp (N : ℚ) b hv hb (logDown (N : ℚ) b hv hb g) with hrdef
  set m := r.toNat with hmdef
  have hm : r = (m : ℤ) := by omega
  rw [hm] at h1 h2
  rw [zpow_natCast] at h1
  have h2q : (N : ℚ) < (b : ℚ) ^ (m + 1) := by
    have hcast : ((m : ℤ) + 1) = ((m + 1 : ℕ) : ℤ) := by push_cast; ring
    rw [hcast, zpow_natCast] at h2
    exact h2
  have h1n : b ^ m ≤ N := by exact_mod_cast h1
  have h2n : N < b ^ (m + 1) := by exact_mod_cast h2q
  have hlog : Nat.log b N = m := Nat.log_eq_of_pow_le_of_lt_pow h1n h2n
  rw [hm, hlog]


theorem captureLoop_spec (capture : ℚ → Capture) (N : ℕ) (hN : 1 ≤ N)
    (g : ℤ) (acc : List (String × ℚ)) (ts : List ℚ) :
    ∃ L, captureLoop capture N g acc ts = Option.some (acc ++ L) ∧
      L.map Prod.snd =
        (ts.filter (fun t => (capture t).isTruthy)).map
          (fun t => (capture t).timeVal) ∧
      ∀ j, j < L.length →
        (L.getD j ("", 0)).1 =
          frameFileName (Nat.log 10 N + 1) (acc.length + j + 1) := by
  induction ts generalizing acc with
  | nil =>
    refine ⟨[], ?_, by simp, by simp⟩
    simp [captureLoop]
  | cons t ts ih =>
    have hsil : safe_int_log (N : ℚ) 10 g =
        Option.some ((Nat.log 10 N : ℕ) : ℤ) :=
      safe_int_log_eq_natLog N hN 10 (by norm_num) g
    have hw : (((Nat.log 10 N : ℕ) : ℤ) + 1).toNat = Nat.log 10 N + 1 := by
      omega
    by_cases hc : (capture t).isTruthy
    · obtain ⟨L, hL, hmap, hname⟩ := ih
        (acc ++ [(frameFileName (Nat.log 10 N + 1) (acc.length + 1),
          (capture t).timeVal)])
      refine ⟨(frameFileName (Nat.log 10 N + 1) (acc.length + 1),
          (capture t).timeVal) :: L, ?_, ?_, ?_⟩
      · rw [show captureLoop capture N g acc (t :: ts) =
            captureLoop capture N g
              (acc ++ [(frameFileName (Nat.log 10 N + 1) (acc.length + 1),
                (capture t).timeVal)]) ts from by
          simp only [captureLoop, hsil, hc, if_true, hw]]
        rw [hL]
        simp
      · simp only [List.map_cons, List.filter_cons, hc, if_true, hmap,
          List.map_cons]
      · intro j hj
        cases j with
        | zero => simp
        | succ j =>
          have hj2 : j < L.length := by simpa using hj
          have := hname j hj2
          simp only [List.length_append, List.length_cons,
            List.length_nil] at this
          simp only [List.getD_cons_succ]
          rw [this]
          congr 1
          omega
    · rw [Bool.not_eq_true] at hc
      obtain ⟨L, hL, hmap, hname⟩ := ih acc
      refine ⟨L, ?_, ?_, hname⟩
      · rw [show captureLoop capture N g acc (t :: ts) =
            captureLoop capture N g acc ts from by
          simp only [captureLoop, hsil, hc, Bool.false_eq_true, if_false]]
        exact hL
      · simp only [List.filter_cons, hc, Bool.false_eq_true, if_false, hmap]


theorem plan_none_length (d p : ℚ) (fc : ℕ) (hfc : 1 ≤ fc) :
    (plan d p fc .none).length = fc := by
  simp only [plan, List.length_cons, frameLoop_length]
  omega

theorem beginTimes_length (d p : ℚ) (fc : ℕ) (hfc : 1 ≤ fc) :
    (beginTimes d p fc).length = fc := by
  simp only [beginTimes, List.length_cons, frameLoop_length]
  omega

theorem plan_none_getD (d p : ℚ) (fc : ℕ) (i : ℕ) (hi : i < fc) :
    (plan d p fc .none).getD i 0 =
      p + ((i : ℚ) + 1) * ((d - 2 * p) / ((fc : ℚ) + 1)) := by
  cases i with
  | zero =>
    simp only [plan, List.getD_cons_zero]
    ring
  | succ i =>
    have hi2 : i < fc - 1 := by omega
    simp only [plan, List.getD_cons_succ]
    rw [frameLoop_getD _ _ _ _ _ hi2]
    rw [Finset.sum_const, Finset.card_range, nsmul_eq_mul]
    push_cast
    ring

theorem sum_one_add_cast (m : ℕ) :
    ∑ k ∈ Finset.range m, ((1 + k : ℕ) : ℚ) =
      (m : ℚ) + (m : ℚ) * ((m : ℚ) - 1) / 2 := by
  have hc : ∀ k ∈ Finset.range m, ((1 + k : ℕ) : ℚ) = 1 + (k : ℚ) := by
    intro k _
    push_cast
    ring
  rw [Finset.sum_congr rfl hc, Finset.sum_add_distrib, sum_range_cast]
  simp only [Finset.sum_const, Finset.card_range, nsmul_eq_mul, mul_one]

theorem beginTimes_getD (d p : ℚ) (fc : ℕ) (m : ℕ) (hm : m < fc) :
    (beginTimes d p fc).getD m 0 =
      p + ((m : ℚ) + 1) * ((d - 2 * p) / ((fc : ℚ) + 1) * (1 / 5)) +
        (((d - 2 * p) / ((fc : ℚ) + 1) -
            (d - 2 * p) / ((fc : ℚ) + 1) * (1 / 5)) * 2 / (fc : ℚ)) *
          (m : ℚ) * ((m : ℚ) + 1) / 2 := by
  cases m with
  | zero =>
    simp only [beginTimes, List.getD_cons_zero]
    ring
  | succ m =>
    have hm2 : m < fc - 1 := by omega
    simp only [beginTimes, List.getD_cons_succ]
    rw [frameLoop_getD _ _ _ _ _ hm2]
    rw [Finset.sum_add_distrib]
    rw [Finset.sum_const, Finset.card_range, nsmul_eq_mul]
    rw [← Finset.mul_sum, sum_one_add_cast]
    push_cast
    ring


theorem zipWith_sub_getD (as bs : List ℚ) (i : ℕ) (h1 : i < as.length)
    (h2 : i < bs.length) :
    (List.zipWith (fun a b => b - a) as bs).getD i 0 =
      bs.getD i 0 - as.getD i 0 := by
  have hlen : i < (List.zipWith (fun a b => b - a) as bs).length := by
    rw [List.length_zipWith]
    omega
  rw [List.getD_eq_getElem _ _ hlen, List.getD_eq_getElem _ _ h1,
    List.getD_eq_getElem _ _ h2]
  exact List.getElem_zipWith

theorem planGaps_begin_length (d p : ℚ) (fc : ℕ) (hfc : 1 ≤ fc) :
    (planGaps d p fc .begin).length = fc + 1 := by
  have hts : (plan d p fc .begin).length = fc := beginTimes_length d p fc hfc
  simp only [planGaps, List.length_zipWith, List.length_cons,
    List.length_append, List.length_singleton, hts]
  omega

theorem planGaps_begin_getD (d p : ℚ) (fc : ℕ) (hfc : 1 ≤ fc) (i : ℕ)
    (hi : i ≤ fc) :
    (planGaps d p fc .begin).getD i 0 =
      (d - 2 * p) / ((fc : ℚ) + 1) * (1 / 5) +
        2 * ((d - 2 * p) / ((fc : ℚ) + 1) -
            (d - 2 * p) / ((fc : ℚ) + 1) * (1 / 5)) / (fc : ℚ) * (i : ℚ) := by
  have hts : (plan d p fc .begin).length = fc := beginTimes_length d p fc hfc
  have hplan : plan d p fc .begin = beginTimes d p fc := rfl
  have hfcQ : (fc : ℚ) ≠ 0 := by
    exact Nat.cast_ne_zero.mpr (by omega)
  have hfc1Q : (fc : ℚ) + 1 ≠ 0 := by positivity
  rw [planGaps, zipWith_sub_getD _ _ i
    (by simp only [List.length_cons, hts]; omega)
    (by simp only [List.length_append, List.length_singleton, hts]; omega)]
  cases i with
  | zero =>
    rw [List.getD_cons_zero, List.getD_append _ _ _ _ (by rw [hts]; omega)]
    rw [hplan, beginTimes_getD d p fc 0 (by omega)]
    push_cast
    ring
  | succ j =>
    rw [List.getD_cons_succ]
    rcases Nat.lt_or_ge (j + 1) fc with hlt | hge
    · rw [List.getD_append _ _ _ _ (by rw [hts]; omega)]
      rw [hplan, beginTimes_getD d p fc (j + 1) hlt,
        beginTimes_getD d p fc j (by omega)]
      push_cast
      field_simp
      ring
    · have hfceq : fc = j + 1 := by omega
      rw [List.getD_append_right _ _ _ _ (by rw [hts]; omega)]
      rw [hts, hplan, beginTimes_getD d p fc j (by omega)]
      have hjq : (fc : ℚ) = (j : ℚ) + 1 := by
        rw [hfceq]; push_cast; ring
      rw [show j + 1 - fc = 0 from by omega, List.getD_cons_zero]
      rw [hjq]
      have hj1 : (j : ℚ) + 1 ≠ 0 := by positivity
      push_cast
      field_simp
      ring


/-- C1: for every `duration > 2*padding` and `frameCount >= 1`, the
`focus = none` plan returns exactly `frameCount` timestamps, the `i`-th
(0-based `i`, so `i+1`-th part boundary) equal to
`padding + (i+1) * partLength` with
`partLength = (duration - 2*padding) / (frameCount + 1)`; hence the
timestamps are strictly increasing with equal consecutive gaps, and for
`duration = 120`, `padding = 0.5`, `frameCount = 4` the timestamps are
exactly `[24.3, 48.1, 71.9, 95.7]`. -/
theorem plan_none_uniform (d p : ℚ) (fc : ℕ) (hd : 2 * p < d)
    (hfc : 1 ≤ fc) :
    (plan d p fc .none).length = fc ∧
    (∀ i, i < fc → (plan d p fc .none).getD i 0 =
      p + ((i : ℚ) + 1) * ((d - 2 * p) / ((fc : ℚ) + 1))) ∧
    (plan d p fc .none).Chain' (fun a b => a < b) ∧
    (∀ i, i + 1 < fc →
      (plan d p fc .none).getD (i + 1) 0 - (plan d p fc .none).getD i 0 =
        (d - 2 * p) / ((fc : ℚ) + 1)) ∧
    plan 120 (1 / 2) 4 .none = [243 / 10, 481 / 10, 719 / 10, 957 / 10] := by
  refine ⟨plan_none_length d p fc hfc,
    fun i hi => plan_none_getD d p fc i hi, ?_, ?_, ?_⟩
  · have key : ∀ (j : ℕ) (hj : j < (plan d p fc Focus.none).length),
        (plan d p fc Focus.none).get ⟨j, hj⟩ =
          p + ((j : ℚ) + 1) * ((d - 2 * p) / ((fc : ℚ) + 1)) := by
      intro j hj
      rw [← List.getD_eq_get]
      exact plan_none_getD d p fc j
        (by rwa [plan_none_length d p fc hfc] at hj)
    rw [List.chain'_iff_get]
    intro i hi
    simp only [key]
    have hPL : 0 < (d - 2 * p) / ((fc : ℚ) + 1) :=
      div_pos (by linarith) (by positivity)
    push_cast
    nlinarith [hPL]
  · intro i hi
    rw [plan_none_getD d p fc (i + 1) (by omega),
      plan_none_getD d p fc i (by omega)]
    push_cast
    ring
  · norm_num [plan, frameLoop]

theorem plan_none_uniform_witness :
    plan 120 (1 / 2) 4 .none = [243 / 10, 481 / 10, 719 / 10, 957 / 10] :=
  (plan_none_uniform 120 (1 / 2) 4 (by norm_num) (by norm_num)).2.2.2.2

/-- C3: for every `duration > 2*padding` and `frameCount >= 1`, mirroring
every `focus = begin` timestamp `t` to `duration - t` and reversing the
sequence yields exactly the `focus = end` plan: that is how the source
computes the `end` plan, so the symmetry holds definitionally (and hence
exactly, not merely within floating tolerance, over `ℚ`). -/
theorem plan_begin_end_symmetry (d p : ℚ) (fc : ℕ) (hd : 2 * p < d)
    (hfc : 1 ≤ fc) :
    ((plan d p fc .begin).map (fun t => d - t)).reverse =
      plan d p fc .«end» := rfl

theorem plan_begin_end_symmetry_witness :
    ((plan 120 (1 / 2) 4 .begin).map (fun t => 120 - t)).reverse =
      plan 120 (1 / 2) 4 .«end» :=
  plan_begin_end_symmetry 120 (1 / 2) 4 (by norm_num) (by norm_num)

/-- C4: for every `duration > 2*padding` and `frameCount >= 1`, the
`frameCount + 1` inter-frame intervals of the `focus = begin` plan (from
`padding` to the first timestamp, between consecutive timestamps, and from
the last timestamp to `duration - padding`) form an arithmetic progression
with first term `base = 0.2 * partLength` and common difference
`delta = 2 * ((duration - 2*padding)/(frameCount+1) - base) / frameCount`;
they sum to `duration - 2*padding`, so together with the two padding gaps
they sum to `duration`. -/
theorem plan_begin_gaps_arithmetic (d p : ℚ) (fc : ℕ) (hd : 2 * p < d)
    (hfc : 1 ≤ fc) :
    (planGaps d p fc .begin).length = fc + 1 ∧
    (∀ i, i ≤ fc → (planGaps d p fc .begin).getD i 0 =
      (d - 2 * p) / ((fc : ℚ) + 1) * (1 / 5) +
        2 * ((d - 2 * p) / ((fc : ℚ) + 1) -
          (d - 2 * p) / ((fc : ℚ) + 1) * (1 / 5)) / (fc : ℚ) * (i : ℚ)) ∧
    (planGaps d p fc .begin).sum = d - 2 * p ∧
    p + (planGaps d p fc .begin).sum + p = d := by
  have hsum : (planGaps d p fc .begin).sum = d - 2 * p := by
    have h := zipWith_sub_telescope (plan d p fc .begin) p (d - p)
    calc (planGaps d p fc .begin).sum = d - p - p := h
      _ = d - 2 * p := by ring
  refine ⟨planGaps_begin_length d p fc hfc,
    fun i hi => planGaps_begin_getD d p fc hfc i hi, hsum, ?_⟩
  rw [hsum]
  ring

theorem plan_begin_gaps_arithmetic_witness :
    (planGaps 120 (1 / 2) 4 .begin).sum = 120 - 2 * (1 / 2) :=
  (plan_begin_gaps_arithmetic 120 (1 / 2) 4 (by norm_num) (by norm_num)).2.2.1

/-- C2 counterexample: against the probe that succeeds exactly for scales
at most `0.7`, the binary search returns `178923/256000 = 0.69891796875`,
which lies below `0.7 - 0.001`: the returned scale is outside the claimed
closed interval `[0.7 - 0.001, 0.7]`. -/
theorem calibrate_thresh07_counterexample :
    (∀ s : ℚ, (fun s => decide (s ≤ 7 / 10)) s = true ↔ s ≤ 7 / 10) ∧
    ¬ (7 / 10 - 1 / 1000 ≤ calibrate (fun s => decide (s ≤ 7 / 10)) ∧
        calibrate (fun s => decide (s ≤ 7 / 10)) ≤ 7 / 10) := by
  constructor
  · intro s
    simp
  · rw [calibrate_thresh07_eq]
    norm_num

/-- C2 amended: for every probe that succeeds exactly for scales at most
`0.7`, the binary search returns a scale in `[0.7 - 3*EPS, 0.7]` (with
`EPS = 0.001`); the window below `0.7` is `3*EPS`, not `EPS` as claimed,
because the final `left` may sit up to `EPS` below `right`, `right` up to
`EPS` below the threshold, and the result is `left - EPS`. -/
theorem calibrate_thresh07_amended (probe : ℚ → Bool)
    (hp : ∀ s, probe s = true ↔ s ≤ 7 / 10) :
    7 / 10 - 3 * EPS ≤ calibrate probe ∧ calibrate probe ≤ 7 / 10 := by
  obtain ⟨h1, h2⟩ := calibrateLoop_thresh probe (7 / 10) hp 0 2
    (by norm_num [EPS]) (by norm_num [EPS])
  have hE : EPS = 1 / 1000 := rfl
  rw [calibrate]
  constructor
  · rw [hE] at h1 ⊢
    linarith
  · rw [hE] at h2 ⊢
    linarith

theorem calibrate_thresh07_amended_witness :
    7 / 10 - 3 * EPS ≤ calibrate (fun s => decide (s ≤ 7 / 10)) ∧
      calibrate (fun s => decide (s ≤ 7 / 10)) ≤ 7 / 10 :=
  calibrate_thresh07_amended (fun s => decide (s ≤ 7 / 10))
    (fun s => by simp)

/-- C6 counterexample: when the probe fails at every attempted scale,
`left` never moves from `0` and the returned scale is `-0.001`, which is
not strictly between `0` and `2`. -/
theorem calibrate_allFail_counterexample :
    ¬ (0 < calibrate (fun _ => false) ∧ calibrate (fun _ => false) < 2) := by
  rw [calibrate_allFail_eq]
  norm_num

/-- C6 amended: for every probe behaviour the returned scale lies in the
interval `[-EPS, 2)`: it is at least `-EPS` (attained by an all-failing
probe) and strictly less than `2`, but not necessarily positive. -/
theorem calibrate_range_amended (probe : ℚ → Bool) :
    -EPS ≤ calibrate probe ∧ calibrate probe < 2 := by
  obtain ⟨h1, h2⟩ := calibrateLoop_mem probe 0 2 (by norm_num)
    (by norm_num [EPS]) (by norm_num)
  have hE : EPS = 1 / 1000 := rfl
  rw [calibrate]
  constructor
  · linarith
  · rw [hE] at h2 ⊢
    linarith

/-- C7 counterexample: a loaded state reached through `load_file` with the
WMV sentinel framerate `1000` and an all-failing calibration probe has
`duration_scale = -0.001`, and then `capture_time_to_seconds 1 = -1000`,
not `1`: the conversion is not the identity on every reachable loaded
state. -/
theorem capture_time_to_seconds_counterexample :
    capture_time_to_seconds (load_duration_scale 1000 (fun _ => false)) 1
      ≠ 1 := by
  rw [load_duration_scale, if_pos rfl, calibrate_allFail_eq]
  norm_num [capture_time_to_seconds]

/-- C7 amended: the conversion is the identity exactly on the loaded states
whose parsed framerate is not the WMV sentinel `1000` (where
`duration_scale = 1`); on sentinel states it divides by the calibrated
scale instead. -/
theorem capture_time_to_seconds_amended (fr : ℚ) (probe : ℚ → Bool) (t : ℚ)
    (h : fr ≠ 1000) :
    capture_time_to_seconds (load_duration_scale fr probe) t = t := by
  rw [load_duration_scale, if_neg h, capture_time_to_seconds, div_one]

theorem capture_time_to_seconds_amended_witness :
    capture_time_to_seconds (load_duration_scale 25 (fun _ => true)) 7 = 7 :=
  capture_time_to_seconds_amended 25 (fun _ => true) 7 (by norm_num)


theorem capture_frames_spec (capture : ℚ → Capture) (g : ℤ) (ts : List ℚ) :
    ∃ l, capture_frames capture g ts = Option.some l ∧
      l.map Prod.snd =
        (ts.filter (fun t => (capture t).isTruthy)).map
          (fun t => (capture t).timeVal) ∧
      ∀ j, j < l.length →
        (l.getD j ("", 0)).1 =
          frameFileName (Nat.log 10 ts.length + 1) (j + 1) := by
  cases ts with
  | nil =>
    refine ⟨[], ?_, by simp, by simp⟩
    simp [capture_frames, captureLoop]
  | cons t ts2 =>
    obtain ⟨L, hL, hmap, hname⟩ :=
      captureLoop_spec capture (t :: ts2).length (by simp) g [] (t :: ts2)
    refine ⟨L, by simpa using hL, hmap, ?_⟩
    intro j hj
    have := hname j hj
    simpa using this

/-- C5: for every list of capture request times and every behaviour of the
per-frame capture operation, the batch capture finishes without raising,
returns at most as many results as requests, keeps the successful results
in the relative order of their requests (the returned timestamps are
exactly those of the truthy captures, filtered in request order), and
returns the empty list when every individual capture reports failure. -/
theorem capture_frames_invariants (capture : ℚ → Capture) (g : ℤ)
    (ts : List ℚ) :
    ∃ l, capture_frames capture g ts = Option.some l ∧
      l.length ≤ ts.length ∧
      l.map Prod.snd =
        (ts.filter (fun t => (capture t).isTruthy)).map
          (fun t => (capture t).timeVal) ∧
      ((∀ t ∈ ts, capture t = Capture.fail) → l = []) := by
  obtain ⟨l, hsome, hmap, _⟩ := capture_frames_spec capture g ts
  refine ⟨l, hsome, ?_, hmap, ?_⟩
  · have hlen := congrArg List.length hmap
    simp only [List.length_map] at hlen
    calc l.length = (ts.filter (fun t => (capture t).isTruthy)).length := hlen
      _ ≤ ts.length := List.length_filter_le _ _
  · intro hall
    have hfil : ts.filter (fun t => (capture t).isTruthy) = [] := by
      rw [List.filter_eq_nil_iff]
      intro a ha
      rw [hall a ha]
      simp [Capture.isTruthy]
    rw [hfil] at hmap
    simpa using congrArg List.length hmap

theorem capture_frames_invariants_witness :
    ∃ l, capture_frames (fun _ => Capture.fail) 0 [1, 2, 3] =
        Option.some l ∧
      l.length ≤ ([1, 2, 3] : List ℚ).length ∧
      l.map Prod.snd =
        (([1, 2, 3] : List ℚ).filter
          (fun t => ((fun _ => Capture.fail) t).isTruthy)).map
          (fun t => ((fun _ => Capture.fail) t).timeVal) ∧
      l = [] := by
  obtain ⟨l, h1, h2, h3, h4⟩ :=
    capture_frames_invariants (fun _ => Capture.fail) 0 [1, 2, 3]
  exact ⟨l, h1, h2, h3, h4 (fun t _ => rfl)⟩

/-- C8 counterexample: a successful mplayer capture at requested time `0`
(the output file exists) returns the echoed timestamp `0.0`, which compares
equal to the failure sentinel `False` under Python `==`, and the batch
capture drops it: a batch of one succeeding request at time `0` yields the
empty result list. -/
theorem capture_sentinel_counterexample :
    Capture.pyEqFalse (mplayer_capture_frame true 0) = true ∧
    capture_frames (fun t => mplayer_capture_frame true t) 0 [0] =
      Option.some [] := by
  constructor
  · simp [mplayer_capture_frame, Capture.pyEqFalse]
  · have h0 : Nat.log 10 1 = 0 := Nat.log_one_right 10
    have hsil : safe_int_log (1 : ℚ) 10 0 = Option.some 0 := by
      have := safe_int_log_eq_natLog 1 le_rfl 10 (by norm_num) 0
      simpa [h0] using this
    simp [capture_frames, captureLoop, hsil, mplayer_capture_frame,
      Capture.isTruthy]

/-- C8 amended: the failure sentinel `False` is distinguishable under
Python `==` from every success result whose timestamp is nonzero, but a
success whose timestamp equals `0` compares equal to the sentinel and is
falsy; accordingly the batch capture keeps exactly the captures with
truthy (nonzero-timestamp) results and drops the rest. -/
theorem capture_sentinel_amended :
    (∀ t : ℚ, t ≠ 0 →
      Capture.pyEqFalse (mplayer_capture_frame true t) = false) ∧
    Capture.pyEqFalse (mplayer_capture_frame true 0) = true ∧
    (∀ (capture : ℚ → Capture) (g : ℤ) (ts : List ℚ),
      (∀ t ∈ ts, (capture t).isTruthy = true) →
      ∃ l, capture_frames capture g ts = Option.some l ∧
        l.length = ts.length) := by
  refine ⟨?_, by simp [mplayer_capture_frame, Capture.pyEqFalse], ?_⟩
  · intro t ht
    simp [mplayer_capture_frame, Capture.pyEqFalse, ht]
  · intro capture g ts hall
    obtain ⟨l, hsome, hmap, _⟩ := capture_frames_spec capture g ts
    refine ⟨l, hsome, ?_⟩
    have hfil : ts.filter (fun t => (capture t).isTruthy) = ts :=
      List.filter_eq_self.mpr hall
    have hlen := congrArg List.length hmap
    simp only [List.length_map, hfil] at hlen
    exact hlen

theorem capture_sentinel_amended_witness :
    Capture.pyEqFalse (mplayer_capture_frame true 5) = false ∧
    ∃ l, capture_frames (fun _ => Capture.ok 1) 0 [3] = Option.some l ∧
      l.length = ([3] : List ℚ).length := by
  constructor
  · exact capture_sentinel_amended.1 5 (by norm_num)
  · exact capture_sentinel_amended.2.2 (fun _ => Capture.ok 1) 0 [3]
      (fun t _ => by simp [Capture.isTruthy])

/-- C10: for every batch with at least one request, the `j`-th (0-based)
successful capture is written to the file
`frame-%0*d.png` with 1-based index `j + 1` zero-padded to width
`Nat.log 10 batchSize + 1 = floor(log10 batchSize) + 1`; the width is
computed exactly for every floating-point `math.log` starting guess `g`
(first conjunct), and a batch of `24` gets `2`-digit padding. -/
theorem capture_frames_naming (capture : ℚ → Capture) (g : ℤ) (ts : List ℚ)
    (h : 1 ≤ ts.length) :
    safe_int_log (ts.length : ℚ) 10 g =
      Option.some ((Nat.log 10 ts.length : ℕ) : ℤ) ∧
    (∃ l, capture_frames capture g ts = Option.some l ∧
      ∀ j, j < l.length →
        (l.getD j ("", 0)).1 =
          frameFileName (Nat.log 10 ts.length + 1) (j + 1)) ∧
    Nat.log 10 24 + 1 = 2 := by
  refine ⟨safe_int_log_eq_natLog ts.length h 10 (by norm_num) g, ?_, ?_⟩
  · obtain ⟨l, h1, _, h3⟩ := capture_frames_spec capture g ts
    exact ⟨l, h1, h3⟩
  · have h24 : Nat.log 10 24 = 1 :=
      Nat.log_eq_of_pow_le_of_lt_pow (by norm_num) (by norm_num)
    rw [h24]

theorem capture_frames_naming_witness :
    ∃ l, capture_frames (fun t => Capture.ok t) 0 [5] = Option.some l ∧
      ∀ j, j < l.length →
        (l.getD j ("", 0)).1 =
          frameFileName (Nat.log 10 ([5] : List ℚ).length + 1) (j + 1) :=
  (capture_frames_naming (fun t => Capture.ok t) 0 [5] (by norm_num)).2.1

theorem queryLoop_never (qs : ℕ → Bool) (d : ℕ → ℚ)
    (hq : ∀ i, qs i = false) :
    ∀ n a, queryLoop qs d a n = Option.none := by
  intro n
  induction n with
  | zero =>
    intro a
    rfl
  | succ n ih =>
    intro a
    simp [queryLoop, hq a, ih]

theorem queryLoop_reaches (qs : ℕ → Bool) (d : ℕ → ℚ) :
    ∀ k a n, k < n → (∀ i, i < k → qs (a + i) = false) →
      qs (a + k) = true → queryLoop qs d a n = Option.some (d (a + k)) := by
  intro k
  induction k with
  | zero =>
    intro a n hn h0 hk
    cases n with
    | zero => omega
    | succ n =>
      simp only [Nat.add_zero] at hk
      simp [queryLoop, hk]
  | succ k ih =>
    intro a n hn hfail hsucc
    cases n with
    | zero => omega
    | succ n =>
      have h0 : qs a = false := by simpa using hfail 0 (by omega)
      have hrec := ih (a + 1) n (by omega)
        (fun i hi => by
          have := hfail (i + 1) (by omega)
          rwa [show a + (i + 1) = a + 1 + i from by omega] at this)
        (by rwa [show a + 1 + k = a + (k + 1) from by omega])
      simp only [queryLoop, h0, Bool.false_eq_true, if_false]
      rw [hrec]
      rw [show a + 1 + k = a + (k + 1) from by omega]

/-- C9 counterexample: there is no fixed bound `N` such that the
duration-query loop of the event-driven backend finishes within `N`
iterations for every sequence of query outcomes: with an all-failing query
the loop is still running after any number of iterations, so `load_file`
does not terminate when the duration query never succeeds. -/
theorem queryLoop_bounded_counterexample :
    ¬ ∃ N : ℕ, ∀ (qs : ℕ → Bool) (d : ℕ → ℚ),
        (queryLoop qs d 0 N).isSome = true := by
  rintro ⟨N, hN⟩
  have h := hN (fun _ => false) (fun _ => 0)
  rw [queryLoop_never (fun _ => false) (fun _ => 0) (fun _ => rfl) N 0] at h
  simp at h

/-- C9 amended: the duration-query loop of `GStreamerBackend.load_file` is
an unbounded `while True`: if attempt `k` is the first successful query it
returns the duration of attempt `k` (after exactly `k + 1` attempts), and
if no attempt ever succeeds it never returns — it is still running after
any number of iterations. -/
theorem queryLoop_amended (qs : ℕ → Bool) (d : ℕ → ℚ) :
    (∀ k, (∀ i, i < k → qs i = false) → qs k = true →
      ∀ n, k < n → queryLoop qs d 0 n = Option.some (d k)) ∧
    ((∀ i, qs i = false) → ∀ n, queryLoop qs d 0 n = Option.none) := by
  constructor
  · intro k hfail hk n hn
    have := queryLoop_reaches qs d k 0 n hn
      (fun i hi => by simpa using hfail i hi) (by simpa using hk)
    simpa using this
  · intro hq n
    exact queryLoop_never qs d hq n 0

theorem queryLoop_amended_witness :
    queryLoop (fun i => decide (i = 2)) (fun _ => (7 : ℚ)) 0 5 =
        Option.some 7 ∧
    queryLoop (fun _ => false) (fun _ => (0 : ℚ)) 0 5 = Option.none := by
  constructor
  · exact (queryLoop_amended (fun i => decide (i = 2)) (fun _ => (7 : ℚ))).1
      2 (fun i hi => by interval_cases i <;> rfl) rfl 5 (by norm_num)
  · exact (queryLoop_amended (fun _ => false) (fun _ => (0 : ℚ))).2
      (fun _ => rfl) 5

end VideoPreviewer
